import Mathlib

/-!
Verification development for the suricasta-rules synchronization pipeline.

This file gives a shallow embedding, in Lean, of the core logic of the
repository (`src/update.rs`, `src/rulesets.rs`, `src/sources.rs`) and proves
properties of that embedding.

Modelling conventions:
* Rust `HashMap<String, V>` is modelled as an association list
  `List (String × V)` with unique keys; `mget`/`mput`/`mdel` model
  `get`/`insert`/`remove`.  Iteration order of a `HashMap` is unspecified in
  Rust, so every theorem below either is stated through `mget` (order
  independent) or is proved invariant under permutation of the entry list.
* Machine integers `u32` are modelled as `Nat`; `str::parse::<u32>` is
  modelled with an explicit `< 2^32` bound.
* The filesystem directory of enabled-source marker files is modelled as an
  association list from file name to file content; YAML
  serialization/deserialization of `EnabledSource` records is modelled as the
  identity (serde round-trips a record to itself), and I/O primitives
  (`fs::write`, `fs::rename`, `fs::remove`) are modelled as always succeeding.
* Strings are processed as `List Char`.  The whitespace and digit character
  classes (`char::is_whitespace`, regex `\s`, regex `\d`) are modelled by
  their ASCII fragments, which is exact for ASCII rule files.
-/

namespace Suricasta

/-! ## Association-list model of `HashMap<String, V>` -/

/-- `HashMap::get`: the value of the first entry with the given key. -/
def mget {α : Type} (m : List (String × α)) (k : String) : Option α :=
  (m.find? (fun p => decide (p.1 = k))).map Prod.snd

/-- `HashMap::insert`: replace any entry with the given key. -/
def mput {α : Type} (m : List (String × α)) (k : String) (v : α) :
    List (String × α) :=
  (k, v) :: m.filter (fun p => decide (p.1 ≠ k))

/-- `HashMap::remove` (also used for the source of a file rename). -/
def mdel {α : Type} (m : List (String × α)) (k : String) : List (String × α) :=
  m.filter (fun p => decide (p.1 ≠ k))

/-- `HashMap::contains_key` / `Path::exists` for the directory model. -/
def mhas {α : Type} (m : List (String × α)) (k : String) : Bool :=
  (mget m k).isSome

/-- The keys of the map are pairwise distinct (the `HashMap` invariant). -/
def NodupKeys {α : Type} (m : List (String × α)) : Prop :=
  (m.map Prod.fst).Nodup

/-- The values of the map, in entry order (`HashMap::values`). -/
def values {α : Type} (m : List (String × α)) : List α :=
  m.map Prod.snd

instance {α : Type} (m : List (String × α)) : Decidable (NodupKeys m) := by
  unfold NodupKeys
  infer_instance

theorem mget_nil {α : Type} (k : String) : mget ([] : List (String × α)) k = none := rfl

theorem mget_cons_self {α : Type} (m : List (String × α)) (k : String) (v : α) :
    mget ((k, v) :: m) k = some v := by
  unfold mget
  rw [List.find?_cons_of_pos _ (by simp)]
  rfl

theorem mget_cons_ne {α : Type} (m : List (String × α)) (k k' : String) (v : α)
    (h : k ≠ k') : mget ((k, v) :: m) k' = mget m k' := by
  unfold mget
  rw [List.find?_cons_of_neg _ (by simp [h])]

theorem mget_mput_self {α : Type} (m : List (String × α)) (k : String) (v : α) :
    mget (mput m k v) k = some v :=
  mget_cons_self _ k v

theorem mget_filter_ne {α : Type} (m : List (String × α)) (k k' : String)
    (h : k' ≠ k) :
    mget (m.filter (fun p => decide (p.1 ≠ k))) k' = mget m k' := by
  induction m with
  | nil => rfl
  | cons p t ih =>
    cases p with
    | mk a b =>
      by_cases hp : a = k
      · subst hp
        have hfc : List.filter (fun p : String × α => decide (p.1 ≠ a)) ((a, b) :: t)
            = List.filter (fun p : String × α => decide (p.1 ≠ a)) t := by
          simp [List.filter_cons]
        rw [hfc, ih, mget_cons_ne t a k' b (fun hh => h hh.symm)]
      · have hfc : List.filter (fun p : String × α => decide (p.1 ≠ k)) ((a, b) :: t)
            = (a, b) :: List.filter (fun p : String × α => decide (p.1 ≠ k)) t := by
          simp [List.filter_cons, hp]
        rw [hfc]
        by_cases hq : a = k'
        · subst hq
          rw [mget_cons_self, mget_cons_self]
        · rw [mget_cons_ne _ _ _ _ hq, mget_cons_ne _ _ _ _ hq, ih]

theorem mget_mput_ne {α : Type} (m : List (String × α)) (k k' : String) (v : α)
    (h : k' ≠ k) : mget (mput m k v) k' = mget m k' := by
  unfold mput
  rw [mget_cons_ne _ _ _ _ (fun hh => h hh.symm)]
  exact mget_filter_ne m k k' h

theorem mget_mdel_self {α : Type} (m : List (String × α)) (k : String) :
    mget (mdel m k) k = none := by
  unfold mdel
  induction m with
  | nil => rfl
  | cons p t ih =>
    cases p with
    | mk a b =>
      by_cases hp : a = k
      · subst hp
        simpa [List.filter_cons] using ih
      · have hfc : List.filter (fun p : String × α => decide (p.1 ≠ k)) ((a, b) :: t)
            = (a, b) :: List.filter (fun p : String × α => decide (p.1 ≠ k)) t := by
          simp [List.filter_cons, hp]
        rw [hfc, mget_cons_ne _ _ _ _ hp, ih]

theorem mget_mdel_ne {α : Type} (m : List (String × α)) (k k' : String)
    (h : k' ≠ k) : mget (mdel m k) k' = mget m k' :=
  mget_filter_ne m k k' h

theorem nodupKeys_mput {α : Type} (m : List (String × α)) (k : String) (v : α)
    (h : NodupKeys m) : NodupKeys (mput m k v) := by
  unfold NodupKeys mput
  simp only [List.map_cons]
  refine List.Nodup.cons ?_ ?_
  · intro hk
    rcases List.mem_map.mp hk with ⟨p, hp, hpk⟩
    rcases List.mem_filter.mp hp with ⟨_, hpd⟩
    simp only [decide_eq_true_eq] at hpd
    exact hpd hpk
  · exact List.Nodup.sublist ((List.filter_sublist m).map Prod.fst) h

/-! ## Rule records and the merge engine (`src/update.rs`) -/

/-- `struct Rule` from `src/update.rs`.  `sid`, `gid`, `rev` are `u32` in the
source, modelled as `Nat`. -/
structure Rule where
  raw : String
  enabled : Bool
  sid : Nat
  gid : Nat
  rev : Nat
  msg : String
deriving DecidableEq

/-- The merge key `format!("{}:{}", rule.gid, rule.sid)`. -/
def fmtKey (r : Rule) : String :=
  toString r.gid ++ ":" ++ toString r.sid

abbrev RuleMap := List (String × Rule)

/-- One step of the merge fold of `UpdateManager::update` (lines 110–117):
`match all_rules.get(&key) { Some(existing) if existing.rev >= rule.rev => {}
_ => { all_rules.insert(key, rule); } }`. -/
def mergeStep (acc : RuleMap) (kr : String × Rule) : RuleMap :=
  match mget acc kr.1 with
  | some existing => if existing.rev ≥ kr.2.rev then acc else mput acc kr.1 kr.2
  | none => mput acc kr.1 kr.2

/-- Folding one source's rule map into the global map
(`for (key, rule) in rules { ... }`). -/
def mergeSource (acc : RuleMap) (src : RuleMap) : RuleMap :=
  src.foldl mergeStep acc

/-- The whole merge of `UpdateManager::update`: all sources' maps folded, in
listing order, into an initially empty global map. -/
def mergeAll (srcs : List RuleMap) : RuleMap :=
  srcs.foldl mergeSource []

/-- The effect of `mergeStep` on a single key, as a function on the optional
existing record. -/
def mergePick : Option Rule → Rule → Option Rule
  | none, r => some r
  | some e, r => if e.rev ≥ r.rev then some e else some r

/-- The rule insertion loop of `UpdateManager::process_source`
(lines 176–179): every parsed rule is inserted unconditionally under its
formatted key. -/
def insertRules (m : RuleMap) (rules : List Rule) : RuleMap :=
  rules.foldl (fun acc r => mput acc (fmtKey r) r) m

/-- Specification-side description of the merge survivor for one key: the
first record (in fold order) whose `rev` is maximal among all contributions. -/
def pickFirstMax : List Rule → Option Rule
  | [] => none
  | r :: rs =>
    match pickFirstMax rs with
    | none => some r
    | some m => if r.rev ≥ m.rev then some r else some m

/-! ## The output writer `UpdateManager::write_rules` -/

/-- The sort key comparison of `sorted_rules.sort_by_key(|r| (r.gid, r.sid))`:
lexicographic `≤` on `(gid, sid)`. -/
def keyLE (a b : Rule) : Prop :=
  a.gid < b.gid ∨ (a.gid = b.gid ∧ a.sid ≤ b.sid)

/-- Strict lexicographic order on `(gid, sid)`. -/
def keyLT (a b : Rule) : Prop :=
  a.gid < b.gid ∨ (a.gid = b.gid ∧ a.sid < b.sid)

instance : DecidableRel keyLE := fun a b => by
  unfold keyLE; infer_instance

instance : DecidableRel keyLT := fun a b => by
  unfold keyLT; infer_instance

instance : IsTotal Rule keyLE :=
  ⟨by intro a b; unfold keyLE; omega⟩

instance : IsTrans Rule keyLE :=
  ⟨by intro a b c h1 h2; unfold keyLE at *; omega⟩

instance : IsAntisymm Rule keyLT :=
  ⟨by intro a b h1 h2; exfalso; unfold keyLT at h1 h2; omega⟩

/-- `rules.values().collect()` followed by
`sorted_rules.sort_by_key(|r| (r.gid, r.sid))` (a stable sort). -/
def sortedRules (m : RuleMap) : List Rule :=
  List.insertionSort keyLE (values m)

/-- The records whose `raw` line is emitted: `if rule.enabled { writeln!... }`
applied to the sorted records. -/
def writeRecords (m : RuleMap) : List Rule :=
  (sortedRules m).filter (fun r => r.enabled)

/-- The emitted lines, in file order. -/
def writeLines (m : RuleMap) : List String :=
  (writeRecords m).map (fun r => r.raw)

/-- The byte content of the output file: each line followed by a newline. -/
def outputFileContent (m : RuleMap) : String :=
  String.join ((writeLines m).map (fun s => s ++ "\n"))

/-- Every entry's key is the formatted key of its record; this holds for every
map built by `process_source` and preserved by the merge. -/
def KeyConsistent (m : RuleMap) : Prop :=
  ∀ p ∈ m, p.1 = fmtKey p.2

/-! ## Lemmas about the merge fold -/

theorem mergePick_none (r : Rule) : mergePick none r = some r := rfl

theorem mergePick_some (e r : Rule) :
    mergePick (some e) r = if e.rev ≥ r.rev then some e else some r := rfl

theorem pickFirstMax_cons (r : Rule) (t : List Rule) :
    pickFirstMax (r :: t) =
      match pickFirstMax t with
      | none => some r
      | some m => if r.rev ≥ m.rev then some r else some m := rfl

theorem mergeStep_get_none (acc : RuleMap) (k : String) (r : Rule)
    (h : mget acc k = none) : mergeStep acc (k, r) = mput acc k r := by
  unfold mergeStep
  rw [h]

theorem mergeStep_get_some (acc : RuleMap) (k : String) (r e : Rule)
    (h : mget acc k = some e) :
    mergeStep acc (k, r) = if e.rev ≥ r.rev then acc else mput acc k r := by
  unfold mergeStep
  rw [h]

theorem mget_mergeStep_self (acc : RuleMap) (k : String) (r : Rule) :
    mget (mergeStep acc (k, r)) k = mergePick (mget acc k) r := by
  cases h : mget acc k with
  | none =>
    rw [mergeStep_get_none acc k r h, mergePick_none]
    exact mget_mput_self acc k r
  | some e =>
    rw [mergeStep_get_some acc k r e h, mergePick_some]
    by_cases hrev : e.rev ≥ r.rev
    · rw [if_pos hrev, if_pos hrev, h]
    · rw [if_neg hrev, if_neg hrev]
      exact mget_mput_self acc k r

theorem mget_mergeStep_ne (acc : RuleMap) (k1 : String) (r : Rule) (k' : String)
    (h : k' ≠ k1) : mget (mergeStep acc (k1, r)) k' = mget acc k' := by
  cases hg : mget acc k1 with
  | none =>
    rw [mergeStep_get_none acc k1 r hg]
    exact mget_mput_ne acc k1 k' r h
  | some e =>
    rw [mergeStep_get_some acc k1 r e hg]
    by_cases hrev : e.rev ≥ r.rev
    · rw [if_pos hrev]
    · rw [if_neg hrev]
      exact mget_mput_ne acc k1 k' r h

theorem mget_mergeSource (acc src : RuleMap) (k : String) :
    mget (mergeSource acc src) k =
      List.foldl mergePick (mget acc k)
        ((src.filter (fun p => decide (p.1 = k))).map Prod.snd) := by
  induction src generalizing acc with
  | nil => rfl
  | cons p t ih =>
    cases p with
    | mk k1 r =>
      unfold mergeSource at *
      simp only [List.foldl_cons]
      by_cases hk : k1 = k
      · subst hk
        rw [ih]
        have hfc : List.filter (fun p : String × Rule => decide (p.1 = k1)) ((k1, r) :: t)
            = (k1, r) :: List.filter (fun p : String × Rule => decide (p.1 = k1)) t := by
          simp [List.filter_cons]
        rw [hfc]
        simp only [List.map_cons, List.foldl_cons]
        rw [mget_mergeStep_self]
      · rw [ih]
        have hfc : List.filter (fun p : String × Rule => decide (p.1 = k)) ((k1, r) :: t)
            = List.filter (fun p : String × Rule => decide (p.1 = k)) t := by
          simp [List.filter_cons, hk]
        rw [hfc, mget_mergeStep_ne acc k1 r k (fun hh => hk hh.symm)]

theorem filter_key_of_nodup (src : RuleMap) (k : String) (h : NodupKeys src) :
    (src.filter (fun p => decide (p.1 = k))).map Prod.snd = (mget src k).toList := by
  induction src with
  | nil => rfl
  | cons p t ih =>
    cases p with
    | mk k1 r =>
      have hcons := (List.nodup_cons.mp h)
      have hnotin : k1 ∉ t.map Prod.fst := hcons.1
      have hnd : NodupKeys t := hcons.2
      by_cases hk : k1 = k
      · subst hk
        have hfc : List.filter (fun p : String × Rule => decide (p.1 = k1)) ((k1, r) :: t)
            = (k1, r) :: List.filter (fun p : String × Rule => decide (p.1 = k1)) t := by
          simp [List.filter_cons]
        have hft : t.filter (fun p : String × Rule => decide (p.1 = k1)) = [] := by
          rw [List.filter_eq_nil_iff]
          intro p hp
          simp only [decide_eq_true_eq]
          intro hpk
          exact hnotin (hpk ▸ List.mem_map_of_mem Prod.fst hp)
        rw [hfc, hft, mget_cons_self]
        rfl
      · have hfc : List.filter (fun p : String × Rule => decide (p.1 = k)) ((k1, r) :: t)
            = List.filter (fun p : String × Rule => decide (p.1 = k)) t := by
          simp [List.filter_cons, hk]
        rw [hfc, mget_cons_ne t k1 k r hk, ih hnd]

theorem mget_foldl_mergeSource (srcs : List RuleMap) (acc : RuleMap) (k : String)
    (h : ∀ s ∈ srcs, NodupKeys s) :
    mget (srcs.foldl mergeSource acc) k =
      List.foldl mergePick (mget acc k) (srcs.filterMap (fun s => mget s k)) := by
  induction srcs generalizing acc with
  | nil => rfl
  | cons s t ih =>
    simp only [List.foldl_cons]
    rw [ih (mergeSource acc s) (fun x hx => h x (List.mem_cons_of_mem s hx))]
    rw [mget_mergeSource, filter_key_of_nodup s k (h s (List.mem_cons_self _ _))]
    cases hs : mget s k with
    | none => simp [List.filterMap_cons, hs, Option.toList]
    | some v => simp [List.filterMap_cons, hs, Option.toList]

theorem pickFirstMax_cons_none (r : Rule) (t : List Rule)
    (h : pickFirstMax t = none) : pickFirstMax (r :: t) = some r := by
  rw [pickFirstMax_cons, h]

theorem pickFirstMax_cons_some (r : Rule) (t : List Rule) (m0 : Rule)
    (h : pickFirstMax t = some m0) :
    pickFirstMax (r :: t) = if r.rev ≥ m0.rev then some r else some m0 := by
  rw [pickFirstMax_cons, h]

theorem pickFirstMax_cons_ne_none (r : Rule) (t : List Rule) :
    pickFirstMax (r :: t) ≠ none := by
  cases hp : pickFirstMax t with
  | none =>
    rw [pickFirstMax_cons_none r t hp]
    exact fun hh => Option.noConfusion hh
  | some m0 =>
    rw [pickFirstMax_cons_some r t m0 hp]
    by_cases h1 : r.rev ≥ m0.rev
    · rw [if_pos h1]; exact fun hh => Option.noConfusion hh
    · rw [if_neg h1]; exact fun hh => Option.noConfusion hh

theorem foldl_mergePick_some (rs : List Rule) (e : Rule) :
    List.foldl mergePick (some e) rs = pickFirstMax (e :: rs) := by
  induction rs generalizing e with
  | nil => rfl
  | cons r t ih =>
    simp only [List.foldl_cons, mergePick_some]
    by_cases h1 : e.rev ≥ r.rev
    · rw [if_pos h1, ih]
      cases hp : pickFirstMax t with
      | none =>
        rw [pickFirstMax_cons_none e t hp,
          pickFirstMax_cons_some e (r :: t) r (pickFirstMax_cons_none r t hp),
          if_pos h1]
      | some m =>
        rw [pickFirstMax_cons_some e t m hp]
        by_cases h2 : r.rev ≥ m.rev
        · have hrt : pickFirstMax (r :: t) = some r := by
            rw [pickFirstMax_cons_some r t m hp, if_pos h2]
          rw [pickFirstMax_cons_some e (r :: t) r hrt, if_pos h1,
            if_pos (by omega : e.rev ≥ m.rev)]
        · have hrt : pickFirstMax (r :: t) = some m := by
            rw [pickFirstMax_cons_some r t m hp, if_neg h2]
          rw [pickFirstMax_cons_some e (r :: t) m hrt]
    · rw [if_neg h1, ih]
      cases hp : pickFirstMax t with
      | none =>
        have hrt : pickFirstMax (r :: t) = some r := pickFirstMax_cons_none r t hp
        rw [hrt, pickFirstMax_cons_some e (r :: t) r hrt, if_neg h1]
      | some m =>
        by_cases h2 : r.rev ≥ m.rev
        · have hrt : pickFirstMax (r :: t) = some r := by
            rw [pickFirstMax_cons_some r t m hp, if_pos h2]
          rw [hrt, pickFirstMax_cons_some e (r :: t) r hrt, if_neg h1]
        · have hrt : pickFirstMax (r :: t) = some m := by
            rw [pickFirstMax_cons_some r t m hp, if_neg h2]
          rw [hrt, pickFirstMax_cons_some e (r :: t) m hrt,
            if_neg (by omega : ¬ e.rev ≥ m.rev)]

theorem foldl_mergePick_none (rs : List Rule) :
    List.foldl mergePick none rs = pickFirstMax rs := by
  cases rs with
  | nil => rfl
  | cons r t =>
    simp only [List.foldl_cons, mergePick_none]
    exact foldl_mergePick_some t r

theorem mget_mergeAll (srcs : List RuleMap) (k : String)
    (h : ∀ s ∈ srcs, NodupKeys s) :
    mget (mergeAll srcs) k = pickFirstMax (srcs.filterMap (fun s => mget s k)) := by
  unfold mergeAll
  rw [mget_foldl_mergeSource srcs [] k h, mget_nil, foldl_mergePick_none]

theorem pickFirstMax_spec (rs : List Rule) (m : Rule)
    (h : pickFirstMax rs = some m) : m ∈ rs ∧ ∀ x ∈ rs, x.rev ≤ m.rev := by
  induction rs generalizing m with
  | nil => cases h
  | cons r t ih =>
    cases hp : pickFirstMax t with
    | none =>
      rw [pickFirstMax_cons_none r t hp] at h
      injection h with h2
      subst h2
      refine ⟨List.mem_cons_self _ _, ?_⟩
      intro x hx
      rcases List.mem_cons.mp hx with h3 | h3
      · subst h3; exact Nat.le_refl _
      · exfalso
        cases t with
        | nil => cases h3
        | cons r2 t2 => exact pickFirstMax_cons_ne_none r2 t2 hp
    | some m0 =>
      rcases ih m0 hp with ⟨hmem, hmax⟩
      rw [pickFirstMax_cons_some r t m0 hp] at h
      by_cases h1 : r.rev ≥ m0.rev
      · rw [if_pos h1] at h
        injection h with h2
        subst h2
        refine ⟨List.mem_cons_self _ _, ?_⟩
        intro x hx
        rcases List.mem_cons.mp hx with h3 | h3
        · subst h3; exact Nat.le_refl _
        · exact Nat.le_trans (hmax x h3) h1
      · rw [if_neg h1] at h
        injection h with h2
        subst h2
        refine ⟨List.mem_cons_of_mem r hmem, ?_⟩
        intro x hx
        rcases List.mem_cons.mp hx with h3 | h3
        · subst h3; omega
        · exact hmax x h3

theorem pickFirstMax_const_rev (rs : List Rule) (v : Nat)
    (h : ∀ r ∈ rs, r.rev = v) : pickFirstMax rs = rs.head? := by
  induction rs with
  | nil => rfl
  | cons r t ih =>
    have ht : pickFirstMax t = t.head? :=
      ih (fun x hx => h x (List.mem_cons_of_mem r hx))
    cases t with
    | nil => rfl
    | cons r2 t2 =>
      have hv1 := h r (List.mem_cons_self _ _)
      have hv2 := h r2 (List.mem_cons_of_mem r (List.mem_cons_self _ _))
      rw [pickFirstMax_cons_some r (r2 :: t2) r2 (by simpa using ht),
        if_pos (by omega : r.rev ≥ r2.rev)]
      rfl

theorem mget_insertRules (rules : List Rule) (m : RuleMap) (k : String) :
    mget (insertRules m rules) k =
      (rules.reverse.find? (fun r => decide (fmtKey r = k))).or (mget m k) := by
  induction rules generalizing m with
  | nil => simp [insertRules]
  | cons r t ih =>
    unfold insertRules at *
    simp only [List.foldl_cons]
    rw [ih, List.reverse_cons, List.find?_append, Option.or_assoc]
    congr 1
    by_cases hk : fmtKey r = k
    · subst hk
      rw [mget_mput_self]
      simp [List.find?]
    · rw [mget_mput_ne m (fmtKey r) k r (fun hh => hk hh.symm)]
      simp [List.find?, hk]

/-! ## Invariants preserved by the merge -/

theorem nodupKeys_mergeStep (acc : RuleMap) (kr : String × Rule)
    (h : NodupKeys acc) : NodupKeys (mergeStep acc kr) := by
  cases kr with
  | mk k r =>
    cases hg : mget acc k with
    | none =>
      rw [mergeStep_get_none acc k r hg]
      exact nodupKeys_mput acc k r h
    | some e =>
      rw [mergeStep_get_some acc k r e hg]
      by_cases h1 : e.rev ≥ r.rev
      · rw [if_pos h1]; exact h
      · rw [if_neg h1]; exact nodupKeys_mput acc k r h

theorem nodupKeys_mergeSource (acc src : RuleMap) (h : NodupKeys acc) :
    NodupKeys (mergeSource acc src) := by
  unfold mergeSource
  induction src generalizing acc with
  | nil => exact h
  | cons p t ih =>
    simp only [List.foldl_cons]
    exact ih _ (nodupKeys_mergeStep acc p h)

theorem nodupKeys_foldl_mergeSource (srcs : List RuleMap) (acc : RuleMap)
    (h : NodupKeys acc) : NodupKeys (srcs.foldl mergeSource acc) := by
  induction srcs generalizing acc with
  | nil => exact h
  | cons s t ih =>
    simp only [List.foldl_cons]
    exact ih _ (nodupKeys_mergeSource acc s h)

theorem nodupKeys_mergeAll (srcs : List RuleMap) : NodupKeys (mergeAll srcs) :=
  nodupKeys_foldl_mergeSource srcs [] (by simp [NodupKeys])

theorem keyConsistent_mput (m : RuleMap) (k : String) (r : Rule)
    (hm : KeyConsistent m) (hk : k = fmtKey r) : KeyConsistent (mput m k r) := by
  intro p hp
  rcases List.mem_cons.mp hp with h1 | h1
  · subst h1; exact hk
  · exact hm p (List.mem_of_mem_filter h1)

theorem keyConsistent_mergeStep (acc : RuleMap) (kr : String × Rule)
    (hacc : KeyConsistent acc) (hkr : kr.1 = fmtKey kr.2) :
    KeyConsistent (mergeStep acc kr) := by
  cases kr with
  | mk k r =>
    cases hg : mget acc k with
    | none =>
      rw [mergeStep_get_none acc k r hg]
      exact keyConsistent_mput acc k r hacc hkr
    | some e =>
      rw [mergeStep_get_some acc k r e hg]
      by_cases h1 : e.rev ≥ r.rev
      · rw [if_pos h1]; exact hacc
      · rw [if_neg h1]; exact keyConsistent_mput acc k r hacc hkr

theorem keyConsistent_mergeSource (acc src : RuleMap) (hacc : KeyConsistent acc)
    (hsrc : KeyConsistent src) : KeyConsistent (mergeSource acc src) := by
  unfold mergeSource
  induction src generalizing acc with
  | nil => exact hacc
  | cons p t ih =>
    simp only [List.foldl_cons]
    exact ih _ (keyConsistent_mergeStep acc p hacc (hsrc p (List.mem_cons_self _ _)))
      (fun q hq => hsrc q (List.mem_cons_of_mem p hq))

theorem keyConsistent_foldl_mergeSource (srcs : List RuleMap) (acc : RuleMap)
    (hacc : KeyConsistent acc) (h : ∀ s ∈ srcs, KeyConsistent s) :
    KeyConsistent (srcs.foldl mergeSource acc) := by
  induction srcs generalizing acc with
  | nil => exact hacc
  | cons s t ih =>
    simp only [List.foldl_cons]
    exact ih _ (keyConsistent_mergeSource acc s hacc (h s (List.mem_cons_self _ _)))
      (fun x hx => h x (List.mem_cons_of_mem s hx))

theorem keyConsistent_mergeAll (srcs : List RuleMap)
    (h : ∀ s ∈ srcs, KeyConsistent s) : KeyConsistent (mergeAll srcs) :=
  keyConsistent_foldl_mergeSource srcs [] (fun p hp => absurd hp (List.not_mem_nil p)) h

theorem nodupKeys_insertRules (m : RuleMap) (rules : List Rule)
    (h : NodupKeys m) : NodupKeys (insertRules m rules) := by
  unfold insertRules
  induction rules generalizing m with
  | nil => exact h
  | cons r t ih =>
    simp only [List.foldl_cons]
    exact ih _ (nodupKeys_mput m (fmtKey r) r h)

theorem keyConsistent_insertRules (m : RuleMap) (rules : List Rule)
    (h : KeyConsistent m) : KeyConsistent (insertRules m rules) := by
  unfold insertRules
  induction rules generalizing m with
  | nil => exact h
  | cons r t ih =>
    simp only [List.foldl_cons]
    exact ih _ (keyConsistent_mput m (fmtKey r) r h rfl)

/-! ## Claims C1 and C4: the merge conflict policy -/

/-- Claim C1: in the merge fold of `update`, an incoming record replaces the
existing record for its key exactly when its `rev` is strictly greater than
the existing record's `rev`; consequently, when all sources' contributions for
a key carry the same `rev`, the earliest-processed source's record survives
the whole merge. -/
theorem C1_merge_replaces_iff_strictly_greater_rev :
    (∀ (acc : RuleMap) (k : String) (r e : Rule), mget acc k = some e →
      mget (mergeStep acc (k, r)) k = some (if e.rev < r.rev then r else e))
    ∧ (∀ (srcs : List RuleMap) (k : String) (v : Nat),
        (∀ s ∈ srcs, NodupKeys s) →
        (∀ r ∈ srcs.filterMap (fun s => mget s k), r.rev = v) →
        mget (mergeAll srcs) k = (srcs.filterMap (fun s => mget s k)).head?) := by
  constructor
  · intro acc k r e h
    rw [mget_mergeStep_self, h, mergePick_some]
    by_cases h1 : e.rev < r.rev
    · rw [if_neg (by omega : ¬ e.rev ≥ r.rev), if_pos h1]
    · rw [if_pos (by omega : e.rev ≥ r.rev), if_neg h1]
  · intro srcs k v hnd hrev
    rw [mget_mergeAll srcs k hnd]
    exact pickFirstMax_const_rev _ v hrev

/-- A concrete rule used in witnesses: gid 1, sid 100, rev 2, from the first
source. -/
def wRuleA : Rule :=
  ⟨"alert tcp any any -> any any (sid:100; rev:2;)", true, 100, 1, 2, ""⟩

/-- A concrete rule with the same key and the same rev as `wRuleA`, from the
second source. -/
def wRuleB : Rule :=
  ⟨"drop tcp any any -> any any (sid:100; rev:2;)", true, 100, 1, 2, ""⟩

theorem C1_witness :
    mget (mergeStep [("1:100", wRuleA)] ("1:100", wRuleB)) "1:100"
      = some (if wRuleA.rev < wRuleB.rev then wRuleB else wRuleA)
    ∧ mget (mergeAll [[("1:100", wRuleA)], [("1:100", wRuleB)]]) "1:100"
      = ([[("1:100", wRuleA)], [("1:100", wRuleB)]].filterMap
          (fun s => mget s "1:100")).head? :=
  ⟨C1_merge_replaces_iff_strictly_greater_rev.1 [("1:100", wRuleA)] "1:100" wRuleB wRuleA
      (by decide),
   C1_merge_replaces_iff_strictly_greater_rev.2 [[("1:100", wRuleA)], [("1:100", wRuleB)]]
      "1:100" 2 (by decide) (by decide)⟩

/-- A concrete rule with high rev, appearing before `wRuleLow` in one source's
file. -/
def wRuleHigh : Rule :=
  ⟨"alert tcp any any -> any any (sid:200; rev:9;)", true, 200, 1, 9, ""⟩

/-- A concrete rule with the same key as `wRuleHigh` but a lower rev, parsed
later in the same source. -/
def wRuleLow : Rule :=
  ⟨"alert udp any any -> any any (sid:200; rev:1;)", true, 200, 1, 1, ""⟩

/-- Claim C4 is false as stated: (i) for two sources whose records for the
same key have equal `rev`, the record inserted last (from the later source)
does not win — `wRuleA` from the earlier source survives, not `wRuleB`; (ii)
within a single source, the surviving record is not the one with the highest
`rev` — `process_source` inserts unconditionally, so the later-parsed
`wRuleLow` wins over `wRuleHigh` despite `rev` 1 < 9. -/
theorem C4_counterexample :
    wRuleA.rev = wRuleB.rev ∧ wRuleA ≠ wRuleB
    ∧ mget (mergeAll [[("1:100", wRuleA)], [("1:100", wRuleB)]]) "1:100" = some wRuleA
    ∧ wRuleLow.rev < wRuleHigh.rev
    ∧ mget (insertRules [] [wRuleHigh, wRuleLow]) "1:200" = some wRuleLow := by
  refine ⟨rfl, by decide, by decide, by decide, by decide⟩

/-- Claim C4 (amended): within a single merge run at most one record survives
per key (the merged map has pairwise distinct keys).  In the cross-source
fold, the survivor for a key is the first contribution, in source listing
order, whose `rev` is maximal among all contributions — so a strictly higher
`rev` always wins, and equal-`rev` ties keep the earliest-processed source's
record, not the latest.  Within a single source, the record parsed last for a
key wins unconditionally, even when its `rev` is lower. -/
theorem C4_merge_survivor_characterized :
    (∀ (srcs : List RuleMap) (k : String), (∀ s ∈ srcs, NodupKeys s) →
      mget (mergeAll srcs) k = pickFirstMax (srcs.filterMap (fun s => mget s k))
      ∧ ∀ m, mget (mergeAll srcs) k = some m →
          m ∈ srcs.filterMap (fun s => mget s k)
          ∧ ∀ x ∈ srcs.filterMap (fun s => mget s k), x.rev ≤ m.rev)
    ∧ (∀ srcs : List RuleMap, NodupKeys (mergeAll srcs))
    ∧ (∀ (rules : List Rule) (k : String),
        mget (insertRules [] rules) k
          = rules.reverse.find? (fun r => decide (fmtKey r = k))) := by
  refine ⟨?_, nodupKeys_mergeAll, ?_⟩
  · intro srcs k hnd
    refine ⟨mget_mergeAll srcs k hnd, ?_⟩
    intro m hm
    rw [mget_mergeAll srcs k hnd] at hm
    exact pickFirstMax_spec _ m hm
  · intro rules k
    rw [mget_insertRules, mget_nil, Option.or_none]

theorem C4_witness :
    (mget (mergeAll [[("1:100", wRuleA)], [("1:100", wRuleB)]]) "1:100"
      = pickFirstMax ([[("1:100", wRuleA)], [("1:100", wRuleB)]].filterMap
          (fun s => mget s "1:100")))
    ∧ NodupKeys (mergeAll [[("1:100", wRuleA)], [("1:100", wRuleB)]])
    ∧ mget (insertRules [] [wRuleHigh, wRuleLow]) "1:200"
      = [wRuleHigh, wRuleLow].reverse.find? (fun r => decide (fmtKey r = "1:200")) :=
  ⟨(C4_merge_survivor_characterized.1 [[("1:100", wRuleA)], [("1:100", wRuleB)]]
      "1:100" (by decide)).1,
   C4_merge_survivor_characterized.2.1 [[("1:100", wRuleA)], [("1:100", wRuleB)]],
   C4_merge_survivor_characterized.2.2 [wRuleHigh, wRuleLow] "1:200"⟩

/-! ## Claims C2 and C3: the output writer -/

instance (m : RuleMap) : Decidable (KeyConsistent m) := by
  unfold KeyConsistent
  infer_instance

theorem keys_eq_map_fmtKey (m : RuleMap) (h2 : KeyConsistent m) :
    m.map Prod.fst = (values m).map fmtKey := by
  unfold values
  rw [List.map_map]
  exact List.map_congr_left (fun p hp => h2 p hp)

theorem values_pairwise_key_ne (m : RuleMap) (h1 : NodupKeys m)
    (h2 : KeyConsistent m) :
    (values m).Pairwise (fun a b => ¬(a.gid = b.gid ∧ a.sid = b.sid)) := by
  have hN : ((values m).map fmtKey).Nodup := by
    rw [← keys_eq_map_fmtKey m h2]
    exact h1
  have hp : (values m).Pairwise (fun a b => fmtKey a ≠ fmtKey b) :=
    List.pairwise_map.mp hN
  refine hp.imp ?_
  intro a b hne heq
  apply hne
  unfold fmtKey
  rw [heq.1, heq.2]

theorem values_nodup (m : RuleMap) (h1 : NodupKeys m) (h2 : KeyConsistent m) :
    (values m).Nodup := by
  refine (values_pairwise_key_ne m h1 h2).imp ?_
  intro a b hne hab
  exact hne (by rw [hab]; exact ⟨rfl, rfl⟩)

theorem sortedRules_perm (m : RuleMap) : (sortedRules m).Perm (values m) :=
  List.perm_insertionSort keyLE (values m)

theorem sortedRules_pairwise_lt (m : RuleMap) (h1 : NodupKeys m)
    (h2 : KeyConsistent m) : List.Pairwise keyLT (sortedRules m) := by
  have hsym : ∀ {a b : Rule}, ¬(a.gid = b.gid ∧ a.sid = b.sid) →
      ¬(b.gid = a.gid ∧ b.sid = a.sid) :=
    fun h hh => h ⟨hh.1.symm, hh.2.symm⟩
  have hne : (sortedRules m).Pairwise (fun a b => ¬(a.gid = b.gid ∧ a.sid = b.sid)) :=
    ((sortedRules_perm m).pairwise_iff hsym).mpr (values_pairwise_key_ne m h1 h2)
  have hle : (sortedRules m).Pairwise keyLE :=
    List.sorted_insertionSort keyLE (values m)
  refine (hle.and hne).imp ?_
  intro a b hab
  rcases hab with ⟨hab1, hab2⟩
  unfold keyLE at hab1
  unfold keyLT
  omega

theorem sortedRules_eq_of_perm (m1 m2 : RuleMap) (h1 : NodupKeys m1)
    (h2 : KeyConsistent m1) (hp : m1.Perm m2) :
    sortedRules m1 = sortedRules m2 := by
  have h1b : NodupKeys m2 := by
    unfold NodupKeys at *
    exact (hp.map Prod.fst).nodup_iff.mp h1
  have h2b : KeyConsistent m2 := fun p hpm => h2 p (hp.mem_iff.mpr hpm)
  have hperm : (sortedRules m1).Perm (sortedRules m2) :=
    (sortedRules_perm m1).trans ((hp.map Prod.snd).trans (sortedRules_perm m2).symm)
  exact List.eq_of_perm_of_sorted hperm
    (sortedRules_pairwise_lt m1 h1 h2) (sortedRules_pairwise_lt m2 h1b h2b)

/-- Claim C2: for every merged record set handed to `write_rules` (a map with
the `HashMap` key invariants), a record with `enabled == false` never appears
among the written records, and every record with `enabled == true` appears
exactly once. -/
theorem C2_output_filtering :
    ∀ m : RuleMap, NodupKeys m → KeyConsistent m →
      ∀ r ∈ values m,
        (r.enabled = false → r ∉ writeRecords m)
        ∧ (r.enabled = true → List.count r (writeRecords m) = 1) := by
  intro m h1 h2 r hr
  constructor
  · intro hfalse hmem
    unfold writeRecords at hmem
    have hmf := (List.mem_filter.mp hmem).2
    rw [hfalse] at hmf
    cases hmf
  · intro htrue
    unfold writeRecords
    rw [List.count_filter (by rw [htrue])]
    rw [(sortedRules_perm m).count_eq r]
    exact List.count_eq_one_of_mem (values_nodup m h1 h2) hr

/-- A concrete disabled (commented-out) rule. -/
def wRuleDisabled : Rule :=
  ⟨"# alert tcp any any -> any any (sid:300; rev:1;)", false, 300, 1, 1, ""⟩

theorem C2_witness :
    wRuleDisabled ∉ writeRecords [("1:100", wRuleA), ("1:300", wRuleDisabled)]
    ∧ List.count wRuleA
        (writeRecords [("1:100", wRuleA), ("1:300", wRuleDisabled)]) = 1 :=
  ⟨(C2_output_filtering [("1:100", wRuleA), ("1:300", wRuleDisabled)]
      (by decide) (by decide) wRuleDisabled (by decide)).1 rfl,
   (C2_output_filtering [("1:100", wRuleA), ("1:300", wRuleDisabled)]
      (by decide) (by decide) wRuleA (by decide)).2 rfl⟩

/-- Claim C3: the written records are strictly ascending in `(gid, sid)`, and
the written bytes are a function of the map contents alone — permuting the
(unordered) `HashMap` entry list does not change the output file, so
re-running merge-and-write on the same record set is byte-for-byte
idempotent. -/
theorem C3_output_sorted_and_deterministic :
    ∀ m1 m2 : RuleMap, NodupKeys m1 → KeyConsistent m1 → m1.Perm m2 →
      List.Pairwise keyLT (writeRecords m1)
      ∧ outputFileContent m1 = outputFileContent m2 := by
  intro m1 m2 h1 h2 hp
  refine ⟨List.Pairwise.filter _ (sortedRules_pairwise_lt m1 h1 h2), ?_⟩
  unfold outputFileContent writeLines writeRecords
  rw [sortedRules_eq_of_perm m1 m2 h1 h2 hp]

theorem C3_witness :
    List.Pairwise keyLT
      (writeRecords [("1:100", wRuleA), ("1:200", wRuleHigh)])
    ∧ outputFileContent [("1:100", wRuleA), ("1:200", wRuleHigh)]
      = outputFileContent [("1:200", wRuleHigh), ("1:100", wRuleA)] :=
  C3_output_sorted_and_deterministic
    [("1:100", wRuleA), ("1:200", wRuleHigh)]
    [("1:200", wRuleHigh), ("1:100", wRuleA)]
    (by decide) (by decide)
    (List.Perm.swap ("1:200", wRuleHigh) ("1:100", wRuleA) [])

/-! ## Claim C6: cache freshness (`src/sources.rs`, `src/update.rs`) -/

/-- `CACHE_MIN_AGE_SECS`, declared identically in `src/sources.rs` line 17 and
`src/update.rs` line 21. -/
def CACHE_MIN_AGE_SECS : Int := 900

/-- The cache gate of `SourceManager::update_sources_cached` (lines 208–225).
`cachedAge` is `some age` when the index file exists and its metadata and
modification time are readable, with `age = now - mtime` in whole seconds.
The result is `true` exactly when the function returns early using the
cache (no network fetch). -/
def usesCachedIndex (force : Bool) (cachedAge : Option Int) : Bool :=
  match force, cachedAge with
  | false, some age => decide (age < CACHE_MIN_AGE_SECS)
  | _, _ => false

/-- The cache gate of `UpdateManager::download_source` (lines 202–219): same
decision applied to the archive cache file. -/
def usesCachedArchive (force : Bool) (cachedAge : Option Int) : Bool :=
  match force, cachedAge with
  | false, some age => decide (age < CACHE_MIN_AGE_SECS)
  | _, _ => false

/-- Claim C6: for both the catalog cache and the archive cache, a non-forced
refresh with cached-file age strictly below 900 seconds performs no fetch and
uses the cache; with age 900 seconds or more it fetches. -/
theorem C6_cache_freshness_900s :
    ∀ age : Int,
      (age < 900 →
        usesCachedIndex false (some age) = true
        ∧ usesCachedArchive false (some age) = true)
      ∧ (900 ≤ age →
        usesCachedIndex false (some age) = false
        ∧ usesCachedArchive false (some age) = false) := by
  intro age
  refine ⟨fun h => ⟨?_, ?_⟩, fun h => ⟨?_, ?_⟩⟩ <;>
    simp [usesCachedIndex, usesCachedArchive, CACHE_MIN_AGE_SECS] <;> omega

theorem C6_witness :
    (usesCachedIndex false (some 800) = true
      ∧ usesCachedArchive false (some 800) = true)
    ∧ (usesCachedIndex false (some 1000) = false
      ∧ usesCachedArchive false (some 1000) = false) :=
  ⟨(C6_cache_freshness_900s 800).1 (by decide),
   (C6_cache_freshness_900s 1000).2 (by decide)⟩

/-! ## The enablement store (`src/rulesets.rs`) -/

/-- `struct EnabledSource`: the content of a marker file.  The `params` values
are arbitrary YAML in the source; only field-wise equality matters here, so
they are modelled as strings. -/
structure EnabledSource where
  source : String
  url : Option String
  params : Option (List (String × String))
  http_header : Option String
  checksum : Option Bool
deriving DecidableEq

/-- `EnabledSource::new`: only `source` is set. -/
def EnabledSource.new (name : String) : EnabledSource :=
  ⟨name, none, none, none, none⟩

/-- `struct SourceInfo` from `src/sources.rs` (a catalog descriptor), with
YAML parameter values modelled as strings. -/
structure SourceInfo where
  vendor : String
  summary : String
  url : String
  description : Option String
  license : Option String
  homepage : Option String
  min_version : Option String
  checksum : Option Bool
  parameters : Option (List (String × String))
  replaces : Option (List String)
  deprecated : Option String
  obsolete : Option String
deriving DecidableEq

/-- The sources directory, modelled as a map from file name to marker-file
content.  `read_dir` order is unspecified, so only membership and counts are
used below; YAML round-tripping and I/O failures are not modelled. -/
abbrev SourcesDir := List (String × EnabledSource)

/-- `RulesetManager::safe_filename`: `name.replace('/', "-")`. -/
def safe_filename (name : String) : String :=
  String.mk (name.toList.map (fun c => if c = '/' then '-' else c))

/-- The enabled marker file name (`get_source_file_path`, relative to the
sources directory). -/
def source_file_name (name : String) : String :=
  safe_filename name ++ ".yaml"

/-- The disabled marker file name (`get_disabled_file_path`). -/
def disabled_file_name (name : String) : String :=
  safe_filename name ++ ".yaml.disabled"

/-- `RulesetManager::is_source_enabled`: the enabled marker file exists. -/
def is_source_enabled (dir : SourcesDir) (name : String) : Bool :=
  mhas dir (source_file_name name)

/-- Split a plain file name at its last dot: `some (stem, ext)` when a dot
exists. -/
def splitLastDot : List Char → Option (List Char × List Char)
  | [] => none
  | c :: t =>
    match splitLastDot t with
    | some (st, ex) => some (c :: st, ex)
    | none => if c = '.' then some ([], t) else none

/-- `Path::extension` for a plain file name: the part after the last dot,
`none` when there is no dot or the only dot is leading. -/
def rustExtension (filename : String) : Option String :=
  match splitLastDot filename.toList with
  | some ([], _) => none
  | some (_, ex) => some (String.mk ex)
  | none => none

/-- `Path::file_stem` for a plain file name. -/
def rustFileStem (filename : String) : Option String :=
  match splitLastDot filename.toList with
  | some ([], _) => some filename
  | some (st, _) => some (String.mk st)
  | none => some filename

/-- ASCII lower-casing of one character (`eq_ignore_ascii_case`). -/
def asciiLowerChar (c : Char) : Char :=
  if 'A' ≤ c ∧ c ≤ 'Z' then Char.ofNat (c.toNat + 32) else c

/-- `str::eq_ignore_ascii_case`. -/
def eq_ignore_ascii_case (a b : String) : Bool :=
  decide (a.toList.map asciiLowerChar = b.toList.map asciiLowerChar)

/-- The file filter of `get_enabled_sources` (lines 79–84): the extension is
exactly `"yaml"` and the stem does not itself have a case-insensitive `yaml`
extension. -/
def isEnabledMarkerFile (filename : String) : Bool :=
  decide (rustExtension filename = some "yaml")
  && !(Option.any (fun ex => eq_ignore_ascii_case ex "yaml")
        ((rustFileStem filename).bind rustExtension))

/-- `RulesetManager::get_enabled_sources`: the declared `source` field of
every enabled marker file. -/
def get_enabled_sources (dir : SourcesDir) : List String :=
  (dir.filter (fun p => isEnabledMarkerFile p.1)).map (fun p => p.2.source)

/-- `get_enabled_sources()?.len()`. -/
def enabledCount (dir : SourcesDir) : Nat :=
  (get_enabled_sources dir).length

/-- `RulesetManager::enable_default_source`: write an `et/open` marker unless
one already exists. -/
def enable_default_source (dir : SourcesDir) : SourcesDir :=
  if is_source_enabled dir "et/open" then dir
  else mput dir (source_file_name "et/open") (EnabledSource.new "et/open")

/-- The write/rename step of `enable_source` (lines 127–146): rename the
disabled marker back when present (preserving its content), otherwise create
a fresh marker containing only `source`. -/
def enableWrite (dir : SourcesDir) (name : String) : SourcesDir :=
  match mget dir (disabled_file_name name) with
  | some record =>
    mput (mdel dir (disabled_file_name name)) (source_file_name name) record
  | none => mput dir (source_file_name name) (EnabledSource.new name)

/-- `RulesetManager::enable_source`.  The obsolete check precedes every
filesystem effect; an already-enabled source returns `Ok` early, skipping the
default-source bootstrap; otherwise the marker is written or renamed back
and, when exactly one source is then enabled and the name is not `"et/open"`,
the default source is also enabled. -/
def enable_source (dir : SourcesDir) (name : String) (info : Option SourceInfo) :
    SourcesDir × Except String Unit :=
  match info.bind (fun i => i.obsolete) with
  | some msg =>
    (dir, Except.error ("Cannot enable obsolete ruleset " ++ name ++ ": " ++ msg))
  | none =>
    if mhas dir (source_file_name name) then (dir, Except.ok ())
    else
      let dir1 := enableWrite dir name
      let dir2 :=
        if enabledCount dir1 = 1 ∧ name ≠ "et/open" then enable_default_source dir1
        else dir1
      (dir2, Except.ok ())

/-- `RulesetManager::disable_source`: rename the enabled marker to its
disabled form; no-op when not enabled. -/
def disable_source (dir : SourcesDir) (name : String) :
    SourcesDir × Except String Unit :=
  match mget dir (source_file_name name) with
  | none => (dir, Except.ok ())
  | some record =>
    (mput (mdel dir (source_file_name name)) (disabled_file_name name) record,
      Except.ok ())

theorem source_ne_disabled (x y : String) (h : safe_filename x = safe_filename y) :
    source_file_name x ≠ disabled_file_name y := by
  intro hh
  have hlen := congrArg String.length hh
  rw [source_file_name, disabled_file_name, String.length_append,
    String.length_append, h] at hlen
  have h5 : (".yaml" : String).length = 5 := rfl
  have h14 : (".yaml.disabled" : String).length = 14 := rfl
  rw [h5, h14] at hlen
  omega

theorem mget_enable_default_source (dir : SourcesDir) (k : String)
    (h : mget dir k ≠ none) :
    mget (enable_default_source dir) k = mget dir k := by
  unfold enable_default_source
  by_cases he : is_source_enabled dir "et/open" = true
  · rw [if_pos he]
  · rw [if_neg he]
    by_cases hk : k = source_file_name "et/open"
    · exfalso
      apply h
      subst hk
      unfold is_source_enabled mhas at he
      cases hg : mget dir (source_file_name "et/open") with
      | none => rfl
      | some v => rw [hg] at he; exact absurd rfl he
    · exact mget_mput_ne dir _ k _ hk

theorem mget_enable_source_self (dir : SourcesDir) (name : String)
    (info : Option SourceInfo) (hobs : info.bind (fun i => i.obsolete) = none) :
    mget (enable_source dir name info).1 (source_file_name name) ≠ none := by
  unfold enable_source
  rw [hobs]
  by_cases hen : mhas dir (source_file_name name) = true
  · rw [if_pos hen]
    unfold mhas at hen
    intro hh
    rw [hh] at hen
    cases hen
  · rw [if_neg hen]
    show mget
        (if enabledCount (enableWrite dir name) = 1 ∧ name ≠ "et/open"
          then enable_default_source (enableWrite dir name)
          else enableWrite dir name)
        (source_file_name name) ≠ none
    have hw : mget (enableWrite dir name) (source_file_name name) ≠ none := by
      unfold enableWrite
      cases hd : mget dir (disabled_file_name name) with
      | some record =>
        rw [mget_mput_self]
        exact fun hh => Option.noConfusion hh
      | none =>
        rw [mget_mput_self]
        exact fun hh => Option.noConfusion hh
    by_cases hc : enabledCount (enableWrite dir name) = 1 ∧ name ≠ "et/open"
    · rw [if_pos hc, mget_enable_default_source _ _ hw]
      exact hw
    · rw [if_neg hc]
      exact hw

/-- Claim C7: for a source with a non-obsolete descriptor, enable, then
disable, then enable leaves the source enabled with its marker-file record
(all `EnabledSourceRecord` fields) identical to what it was before the
disable: the second enable renames the disabled marker back rather than
recreating it. -/
theorem C7_enable_disable_enable_roundtrip :
    ∀ (dir : SourcesDir) (name : String) (info : Option SourceInfo),
      info.bind (fun i => i.obsolete) = none →
      mget (enable_source
              (disable_source (enable_source dir name info).1 name).1
              name info).1 (source_file_name name)
        = mget (enable_source dir name info).1 (source_file_name name)
      ∧ mget (enable_source dir name info).1 (source_file_name name) ≠ none := by
  intro dir name info hobs
  refine ⟨?_, mget_enable_source_self dir name info hobs⟩
  set d1 := (enable_source dir name info).1 with hd1
  have h1 : mget d1 (source_file_name name) ≠ none :=
    mget_enable_source_self dir name info hobs
  cases hc : mget d1 (source_file_name name) with
  | none => exact absurd hc h1
  | some c =>
    have hd2 : (disable_source d1 name).1
        = mput (mdel d1 (source_file_name name)) (disabled_file_name name) c := by
      unfold disable_source
      rw [hc]
    rw [hd2]
    set d2 := mput (mdel d1 (source_file_name name)) (disabled_file_name name) c
      with hd2e
    have h2a : mget d2 (source_file_name name) = none := by
      rw [hd2e, mget_mput_ne _ _ _ _ (source_ne_disabled name name rfl),
        mget_mdel_self]
    have h2b : mget d2 (disabled_file_name name) = some c :=
      mget_mput_self _ _ _
    unfold enable_source
    rw [hobs]
    rw [if_neg (by unfold mhas; rw [h2a]; exact fun hh => Bool.noConfusion hh)]
    show mget
        (if enabledCount (enableWrite d2 name) = 1 ∧ name ≠ "et/open"
          then enable_default_source (enableWrite d2 name)
          else enableWrite d2 name)
        (source_file_name name) = some c
    have hwg : mget (enableWrite d2 name) (source_file_name name) = some c := by
      unfold enableWrite
      rw [h2b, mget_mput_self]
    by_cases hcnd : enabledCount (enableWrite d2 name) = 1 ∧ name ≠ "et/open"
    · rw [if_pos hcnd,
        mget_enable_default_source _ _ (by rw [hwg]; exact fun hh => Option.noConfusion hh),
        hwg]
    · rw [if_neg hcnd, hwg]

theorem C7_witness :
    mget (enable_source
            (disable_source (enable_source [] "oisf/trafficid" none).1
              "oisf/trafficid").1
            "oisf/trafficid" none).1 (source_file_name "oisf/trafficid")
      = mget (enable_source [] "oisf/trafficid" none).1
          (source_file_name "oisf/trafficid")
    ∧ mget (enable_source [] "oisf/trafficid" none).1
        (source_file_name "oisf/trafficid") ≠ none :=
  C7_enable_disable_enable_roundtrip [] "oisf/trafficid" none rfl

/-- Claim C8: enabling a source whose descriptor has a non-empty `obsolete`
field fails with an error, and the sources directory is unchanged — the check
precedes every filesystem effect. -/
theorem C8_obsolete_enable_fails_unchanged :
    ∀ (dir : SourcesDir) (name : String) (info : SourceInfo) (msg : String),
      info.obsolete = some msg →
      enable_source dir name (some info)
        = (dir, Except.error
            ("Cannot enable obsolete ruleset " ++ name ++ ": " ++ msg)) := by
  intro dir name info msg h
  unfold enable_source
  have hb : (some info).bind (fun i => i.obsolete) = some msg := h
  rw [hb]

/-- A concrete obsolete catalog descriptor. -/
def wInfoObsolete : SourceInfo :=
  ⟨"vendor", "summary", "https://example.com/x.tar.gz", none, none, none,
    none, none, none, none, none, some "no longer available"⟩

theorem C8_witness :
    enable_source [] "x/y" (some wInfoObsolete)
      = ([], Except.error
          ("Cannot enable obsolete ruleset " ++ "x/y" ++ ": "
            ++ "no longer available")) :=
  C8_obsolete_enable_fails_unchanged [] "x/y" wInfoObsolete "no longer available" rfl

/-- A directory holding a single enabled source `foo`. -/
def c9dir : SourcesDir := [("foo.yaml", EnabledSource.new "foo")]

/-- Claim C9 counterexample: `enable("foo")` on a directory where `foo` is
already the single enabled source completes successfully, exactly one source
is enabled afterwards, and `"foo"` is not `"et/open"`, yet `et/open` is NOT
enabled — the already-enabled early return skips the default-source
bootstrap, contradicting the claim for this successful enable. -/
theorem C9_counterexample :
    (enable_source c9dir "foo" none).2 = Except.ok ()
    ∧ (enable_source c9dir "foo" none).1 = c9dir
    ∧ enabledCount (enable_source c9dir "foo" none).1 = 1
    ∧ ("foo" : String) ≠ "et/open"
    ∧ is_source_enabled (enable_source c9dir "foo" none).1 "et/open" = false :=
  ⟨rfl, rfl, rfl, by decide, rfl⟩

/-- Claim C9 (amended): after a successful `enable(X)` in which X was not
already enabled, if exactly one source is enabled (at the post-write check)
and X is not `"et/open"`, then `et/open` is also enabled — a marker is
created for it unless one already exists; if X is `"et/open"` itself or the
enabled count differs from one, no extra marker is created.  (The
already-enabled no-op path skips this bootstrap entirely.) -/
theorem C9_default_bootstrap_after_fresh_enable :
    ∀ (dir : SourcesDir) (name : String) (info : Option SourceInfo),
      info.bind (fun i => i.obsolete) = none →
      mhas dir (source_file_name name) = false →
      (enable_source dir name info).2 = Except.ok ()
      ∧ ((enabledCount (enableWrite dir name) = 1 ∧ name ≠ "et/open") →
          (enable_source dir name info).1
            = enable_default_source (enableWrite dir name)
          ∧ is_source_enabled (enable_source dir name info).1 "et/open" = true
          ∧ (is_source_enabled (enableWrite dir name) "et/open" = true →
              (enable_source dir name info).1 = enableWrite dir name))
      ∧ ((enabledCount (enableWrite dir name) ≠ 1 ∨ name = "et/open") →
          (enable_source dir name info).1 = enableWrite dir name) := by
  intro dir name info hobs hnew
  have hne : ¬ (mhas dir (source_file_name name) = true) := by
    rw [hnew]
    exact fun hh => Bool.noConfusion hh
  have hfst : (enable_source dir name info).1
      = if enabledCount (enableWrite dir name) = 1 ∧ name ≠ "et/open"
        then enable_default_source (enableWrite dir name)
        else enableWrite dir name := by
    unfold enable_source
    rw [hobs, if_neg hne]
  have hsnd : (enable_source dir name info).2 = Except.ok () := by
    unfold enable_source
    rw [hobs, if_neg hne]
  refine ⟨hsnd, ?_, ?_⟩
  · intro hc
    rw [hfst, if_pos hc]
    refine ⟨rfl, ?_, ?_⟩
    · unfold enable_default_source
      by_cases he : is_source_enabled (enableWrite dir name) "et/open" = true
      · rw [if_pos he]
        exact he
      · rw [if_neg he]
        unfold is_source_enabled mhas
        rw [mget_mput_self]
        rfl
    · intro he
      unfold enable_default_source
      rw [if_pos he]
  · intro hc
    rw [hfst,
      if_neg (fun hh => hc.elim (fun h2 => h2 hh.1) (fun h2 => hh.2 h2))]

theorem C9_witness :
    (enable_source [] "oisf/trafficid" none).2 = Except.ok ()
    ∧ ((enabledCount (enableWrite [] "oisf/trafficid") = 1
          ∧ ("oisf/trafficid" : String) ≠ "et/open") →
        (enable_source [] "oisf/trafficid" none).1
          = enable_default_source (enableWrite [] "oisf/trafficid")
        ∧ is_source_enabled (enable_source [] "oisf/trafficid" none).1 "et/open"
            = true
        ∧ (is_source_enabled (enableWrite [] "oisf/trafficid") "et/open" = true →
            (enable_source [] "oisf/trafficid" none).1
              = enableWrite [] "oisf/trafficid"))
    ∧ ((enabledCount (enableWrite [] "oisf/trafficid") ≠ 1
          ∨ ("oisf/trafficid" : String) = "et/open") →
        (enable_source [] "oisf/trafficid" none).1
          = enableWrite [] "oisf/trafficid") :=
  C9_default_bootstrap_after_fresh_enable [] "oisf/trafficid" none rfl (by decide)

/-- Claim C10: the name-to-marker-file mapping (`safe_filename` plus a
`.yaml` suffix) is not injective, and the enablement store cannot distinguish
names that flatten to the same file name: enabling `x` makes `y` enabled, and
disabling `x` disables `y` as well. -/
theorem C10_marker_name_collision :
    ∀ (dir : SourcesDir) (x y : String), x ≠ y →
      safe_filename x = safe_filename y →
      is_source_enabled (enable_source dir x none).1 y = true
      ∧ is_source_enabled
          (disable_source (enable_source dir x none).1 x).1 y = false := by
  intro dir x y hxy hsf
  have hfn : source_file_name x = source_file_name y := by
    unfold source_file_name
    rw [hsf]
  have h1 : mget (enable_source dir x none).1 (source_file_name x) ≠ none :=
    mget_enable_source_self dir x none rfl
  constructor
  · unfold is_source_enabled mhas
    rw [← hfn]
    cases hg : mget (enable_source dir x none).1 (source_file_name x) with
    | none => exact absurd hg h1
    | some c => rfl
  · cases hg : mget (enable_source dir x none).1 (source_file_name x) with
    | none => exact absurd hg h1
    | some c =>
      have hd : (disable_source (enable_source dir x none).1 x).1
          = mput (mdel (enable_source dir x none).1 (source_file_name x))
              (disabled_file_name x) c := by
        unfold disable_source
        rw [hg]
      rw [hd]
      unfold is_source_enabled mhas
      rw [← hfn,
        mget_mput_ne _ _ _ _ (source_ne_disabled x x rfl), mget_mdel_self]
      rfl

theorem C10_witness :
    is_source_enabled (enable_source [] "a/b" none).1 "a-b" = true
    ∧ is_source_enabled
        (disable_source (enable_source [] "a/b" none).1 "a/b").1 "a-b" = false :=
  C10_marker_name_collision [] "a/b" "a-b" (by decide) (by decide)

/-! ## Claim C5: the rule line parser (`UpdateManager::parse_rules`)

The regexes of `parse_rules` are embedded as direct matching functions over
the characters of the (already trimmed) line.  Character classes are modelled
by their ASCII fragments: `\s` and `char::is_whitespace` as the six ASCII
whitespace characters, `\d` as the ASCII digits. -/

/-- The ASCII whitespace class (`char::is_whitespace`, regex `\s`). -/
def isWsChar (c : Char) : Bool :=
  c = ' ' || c = '\t' || c = '\n' || c = '\r' || c = '\x0b' || c = '\x0c'

/-- `str::trim` on the characters of a line. -/
def trimChars (s : List Char) : List Char :=
  ((s.dropWhile isWsChar).reverse.dropWhile isWsChar).reverse

/-- `line.trim()` as a string. -/
def rustTrim (line : String) : String :=
  String.mk (trimChars line.toList)

/-- `trimmed.starts_with('#')`. -/
def startsWithHash : List Char → Bool
  | '#' :: _ => true
  | _ => false

/-- `str::contains` for a fixed pattern. -/
def hasSubstr (pat : List Char) : List Char → Bool
  | [] => pat.isEmpty
  | c :: t => pat.isPrefixOf (c :: t) || hasSubstr pat t

def sidTag : List Char := ['s', 'i', 'd', ':']

def gidTag : List Char := ['g', 'i', 'd', ':']

def revTag : List Char := ['r', 'e', 'v', ':']

/-- The optional group `(#?\s*)?` of `rule_regex` consumes a leading `#` when
present (whitespace is handled by the caller). -/
def stripHash : List Char → List Char
  | '#' :: t => t
  | s => s

/-- The action-keyword alternation `(alert|drop|pass|reject)`: the remainder
after a keyword prefix, when one is present. -/
def keywordRest : List Char → Option (List Char)
  | 'a' :: 'l' :: 'e' :: 'r' :: 't' :: rest => some rest
  | 'd' :: 'r' :: 'o' :: 'p' :: rest => some rest
  | 'p' :: 'a' :: 's' :: 's' :: rest => some rest
  | 'r' :: 'e' :: 'j' :: 'e' :: 'c' :: 't' :: rest => some rest
  | _ => none

/-- Does `sid:\s*\d+.*?;` match starting exactly at this position? -/
def sidSemiHere (s : List Char) : Bool :=
  match s with
  | 's' :: 'i' :: 'd' :: ':' :: rest =>
    match rest.dropWhile isWsChar with
    | d :: tail => d.isDigit && tail.contains ';'
    | [] => false
  | _ => false

/-- Does `sid:\s*\d+.*?;` match starting at some position? -/
def sidSemiSomewhere : List Char → Bool
  | [] => false
  | c :: t => sidSemiHere (c :: t) || sidSemiSomewhere t

/-- `rule_regex.is_match(trimmed)` for
`^(#?\s*)?(alert|drop|pass|reject)\s+.*?sid:\s*(\d+).*?;`. -/
def ruleRegexMatch (s : List Char) : Bool :=
  match keywordRest ((stripHash s).dropWhile isWsChar) with
  | some (c :: rest) => isWsChar c && sidSemiSomewhere rest
  | _ => false

/-- The leftmost capture of `tag\s*(\d+)` (the `captures` call of
`sid_regex`, `gid_regex`, `rev_regex`): the maximal digit run at the first
position where the whole pattern matches. -/
def findTagDigits (tag : List Char) : List Char → Option (List Char)
  | [] => none
  | c :: t =>
    if tag.isPrefixOf (c :: t) then
      let ds := (((c :: t).drop tag.length).dropWhile isWsChar).takeWhile Char.isDigit
      if ds.isEmpty then findTagDigits tag t else some ds
    else findTagDigits tag t

/-- The numeric value of an ASCII digit run. -/
def digitsToNat (ds : List Char) : Nat :=
  ds.foldl (fun acc c => acc * 10 + (c.toNat - 48)) 0

/-- `str::parse::<u32>` on a non-empty ASCII digit run: the value when it
fits in a `u32`; overflow fails, which `parse_rules` turns into the field
default via `unwrap_or`. -/
def parseU32 (ds : List Char) : Option Nat :=
  if digitsToNat ds < 4294967296 then some (digitsToNat ds) else none

/-- The leftmost capture of `msg:\s*"([^"]+)"`. -/
def findMsgCapture : List Char → Option (List Char)
  | [] => none
  | c :: t =>
    if ['m', 's', 'g', ':'].isPrefixOf (c :: t) then
      match ((c :: t).drop 4).dropWhile isWsChar with
      | '"' :: rest =>
        let content := rest.takeWhile (fun ch => decide (ch ≠ '"'))
        if content.isEmpty || content.length = rest.length then findMsgCapture t
        else some content
      | _ => findMsgCapture t
    else findMsgCapture t

/-- One iteration of the line loop of `parse_rules` (lines 373–419): `none`
when the line is skipped (blank, comment without `sid:`, regex mismatch, or
`sid == 0`), `some` of the parsed record otherwise. -/
def parseRuleLine (line : String) : Option Rule :=
  let trimmed := trimChars line.toList
  if trimmed.isEmpty || (startsWithHash trimmed && !hasSubstr sidTag trimmed) then
    none
  else if ruleRegexMatch trimmed then
    let sid := ((findTagDigits sidTag trimmed).bind parseU32).getD 0
    let gid := ((findTagDigits gidTag trimmed).bind parseU32).getD 1
    let rev := ((findTagDigits revTag trimmed).bind parseU32).getD 1
    let msg := ((findMsgCapture trimmed).map String.mk).getD ""
    if sid > 0 then
      some ⟨String.mk trimmed, !startsWithHash trimmed, sid, gid, rev, msg⟩
    else none
  else none

/-- `UpdateManager::parse_rules` on the lines of a file. -/
def parse_rules (lines : List String) : List Rule :=
  lines.filterMap parseRuleLine

/-- A rule line with leading whitespace. -/
def c5line : String :=
  "  alert tcp any any -> any any (msg:\"t\"; sid:1000001; rev:3;)"

/-- The record `parse_rules` produces for `c5line`. -/
def c5rule : Rule :=
  ⟨"alert tcp any any -> any any (msg:\"t\"; sid:1000001; rev:3;)",
    true, 1000001, 1, 3, "t"⟩

/-- A disabled rule line with whitespace before the comment marker. -/
def c5lineB : String := "  # alert tcp any any -> any any (sid:1000002;)"

/-- The record `parse_rules` produces for `c5lineB`. -/
def c5ruleB : Rule :=
  ⟨"# alert tcp any any -> any any (sid:1000002;)", false, 1000002, 1, 1, ""⟩

/-- Claim C5 counterexample: `c5line` is accepted but its record's `raw` is
the trimmed line, not the original line text — the leading whitespace is
dropped.  And `c5lineB` does not start with the comment marker (it starts
with a space), yet its record has `enabled = false`, because the code tests
the trimmed line. -/
theorem C5_counterexample :
    (parseRuleLine c5line = some c5rule ∧ c5rule.raw ≠ c5line)
    ∧ (parseRuleLine c5lineB = some c5ruleB ∧ c5ruleB.enabled = false
        ∧ startsWithHash c5lineB.toList = false) :=
  ⟨⟨by decide, by decide⟩, ⟨by decide, rfl, by decide⟩⟩

/-- Claim C5 (amended): for every input line accepted by the rule parser, the
record's `raw` field is the whitespace-trimmed line — verbatim otherwise,
including any disabling comment marker — and `enabled` is true exactly when
the trimmed line does not start with `#`.  Every record produced by
`parse_rules` arises from such an accepted line. -/
theorem C5_raw_is_trimmed_line :
    (∀ (line : String) (r : Rule), parseRuleLine line = some r →
      r.raw = rustTrim line
      ∧ r.enabled = !startsWithHash (trimChars line.toList))
    ∧ (∀ (lines : List String) (r : Rule), r ∈ parse_rules lines →
        ∃ line ∈ lines, parseRuleLine line = some r) := by
  constructor
  · intro line r h
    simp only [parseRuleLine] at h
    split at h
    · cases h
    · split at h
      · split at h
        · injection h with h2
          subst h2
          exact ⟨rfl, rfl⟩
        · cases h
      · cases h
  · intro lines r h
    exact List.mem_filterMap.mp h

theorem C5_witness :
    (c5rule.raw = rustTrim c5line
      ∧ c5rule.enabled = !startsWithHash (trimChars c5line.toList))
    ∧ ∃ line ∈ [c5line], parseRuleLine line = some c5rule :=
  ⟨C5_raw_is_trimmed_line.1 c5line c5rule (by decide),
   C5_raw_is_trimmed_line.2 [c5line] c5rule (by decide)⟩

end Suricasta
